import Mathlib

/-!
Verification of the address-book core of the "Personal Assistant" program
(files `project_end.py` and the unnamed `Personal_Assistant.py`).

The Python code is shallowly embedded: each relevant class/method becomes a
Lean definition operating on explicit state.  Python machine behaviour is
modelled explicitly:
  * Python objects of the `Field` subclasses (`Phone`/`PhoneNumber`,
    `Email`/`EmailAddress`) define no `__eq__`, so `==` on them is object
    identity; each embedded field object carries an identity tag `oid`.
  * raising `ValueError` is modelled with `Except PyErr`.
  * `datetime` / `date` values follow CPython's proleptic-Gregorian
    calendar (`_ymd2ord`); a `datetime` is an ordinal day plus the
    seconds-of-day, compared lexicographically field by field, and
    `timedelta.days` is floor division of the total difference by 86400.
-/

namespace PA

/-- The one Python exception kind raised by the embedded operations
(`ValueError`, raised by `list.remove`, field validation and
`date.replace`). -/
inductive PyErr where
  | valueError
  deriving DecidableEq, Repr

/-- A `Field` object from the source (`Field.__init__` stores `value`).
The `Field` subclasses define no `__eq__`, so Python compares these
objects by identity: `oid` is the object's identity, `value` the wrapped
string. -/
structure PyField where
  oid : Nat
  value : String
  deriving DecidableEq, Repr

/-- Python `==` on two `Field` objects: object identity (no `__eq__` is
defined in the source). -/
def pyEq (a b : PyField) : Bool :=
  a.oid == b.oid

/-- One contact (`Record` in `project_end.py`).  The birthdate field stores
a `strptime`-validated "YYYY-MM-DD" string, modelled as the parsed
`(year, month, day)` triple. -/
structure Record where
  name : String
  phones : List PyField
  emails : List PyField
  birthday : Option (Nat × Nat × Nat)
  deriving DecidableEq, Repr

/-- Python `list.remove(x)`: remove the first element equal (`==`) to `x`;
`none` models the `ValueError` raised when no element is equal. -/
def listRemove (x : PyField) : List PyField → Option (List PyField)
  | [] => none
  | y :: ys => if pyEq x y then some ys else (listRemove x ys).map (y :: ·)

/-- `Record.remove_phone`: `self.phones.remove(phone)`. -/
def Record.remove_phone (r : Record) (p : PyField) : Except PyErr Record :=
  match listRemove p r.phones with
  | some l => .ok { r with phones := l }
  | none => .error .valueError

/-- `Record.add_phone`: `self.phones.append(phone)`. -/
def Record.add_phone (r : Record) (p : PyField) : Record :=
  { r with phones := r.phones ++ [p] }

/-- `Record.edit_phone`: `self.remove_phone(old_phone)` then
`self.add_phone(new_phone)`; if `remove_phone` raises, the exception
propagates before `add_phone` runs, so the list is left unchanged. -/
def Record.edit_phone (r : Record) (old nw : PyField) : Except PyErr Record :=
  (r.remove_phone old).map (fun r' => r'.add_phone nw)

lemma listRemove_eq_none (x : PyField) (l : List PyField)
    (h : ∀ q ∈ l, pyEq x q = false) : listRemove x l = none := by
  induction l with
  | nil => rfl
  | cons y ys ih =>
    simp only [listRemove, h y (by simp)]
    simp only [Bool.false_eq_true, if_false]
    rw [ih (fun q hq => h q (by simp [hq]))]
    rfl

lemma listRemove_split (x q : PyField) (l₁ l₂ : List PyField)
    (hq : pyEq x q = true) (h₁ : ∀ z ∈ l₁, pyEq x z = false) :
    listRemove x (l₁ ++ q :: l₂) = some (l₁ ++ l₂) := by
  induction l₁ with
  | nil => simp [listRemove, hq]
  | cons y ys ih =>
    simp only [List.cons_append, listRemove, h₁ y (by simp)]
    simp only [Bool.false_eq_true, if_false, List.append_eq]
    rw [ih (fun z hz => h₁ z (by simp [hz]))]
    rfl

/-- C7 counterexample: removal is NOT by wrapped value.  The record's phone
list holds an object wrapping "123456789"; a different object wrapping the
same value is passed to `remove_phone`, which raises `ValueError` even
though an element with an equal value is present. -/
theorem remove_phone_value_cex :
    let r : Record := ⟨"Jan", [⟨0, "123456789"⟩], [], none⟩
    let p : PyField := ⟨1, "123456789"⟩
    (r.phones.map PyField.value).contains p.value = true ∧
      r.remove_phone p = .error .valueError := by
  constructor
  · rfl
  · rfl

/-- C7 (amended): `remove_phone(p)` removes the first element that is the
same object as `p` (Python `==` on these wrapper objects is identity), and
raises `ValueError` exactly when no element is the same object as `p` —
value equality between distinct objects does not count. -/
theorem remove_phone_identity_spec (r : Record) (p : PyField) :
    ((∀ q ∈ r.phones, pyEq p q = false) →
      r.remove_phone p = .error .valueError) ∧
    (∀ l₁ q l₂, r.phones = l₁ ++ q :: l₂ → pyEq p q = true →
      (∀ z ∈ l₁, pyEq p z = false) →
      r.remove_phone p = .ok { r with phones := l₁ ++ l₂ }) := by
  constructor
  · intro h
    unfold Record.remove_phone
    rw [listRemove_eq_none p r.phones h]
  · intro l₁ q l₂ hsplit hq h₁
    unfold Record.remove_phone
    rw [hsplit, listRemove_split p q l₁ l₂ hq h₁]

/-- C7 witness: removing the identical object out of a one-element list
succeeds and leaves the empty list. -/
theorem remove_phone_identity_spec_witness :
    (Record.mk "Jan" [⟨0, "123456789"⟩] [] none).remove_phone ⟨0, "123456789"⟩ =
      .ok (Record.mk "Jan" [] [] none) := by
  have h := (remove_phone_identity_spec ⟨"Jan", [⟨0, "123456789"⟩], [], none⟩
    ⟨0, "123456789"⟩).2 [] ⟨0, "123456789"⟩ [] rfl rfl (by intro z hz; cases hz)
  exact h

/-- C4 counterexample: the claim reads `edit_phone`'s presence test over
phone values.  Here `old`'s value "123456789" is present in the record's
phone list (held by a different wrapper object), yet `edit_phone` fails
with `ValueError` instead of replacing it, because Python compares the
wrapper objects by identity. -/
theorem edit_phone_value_cex :
    let r : Record := ⟨"Jan", [⟨0, "123456789"⟩], [], none⟩
    let old : PyField := ⟨1, "123456789"⟩
    let nw : PyField := ⟨2, "987654321"⟩
    (r.phones.map PyField.value).contains old.value = true ∧
      r.edit_phone old nw = .error .valueError := by
  constructor
  · rfl
  · rfl

/-- C4 (amended): `edit_phone(old, new)` is remove-then-append where the
removal compares by Python object identity: if no element of the list is
the same object as `old` it fails with `ValueError` before `add_phone`
runs, leaving the list unchanged (no partial mutation); if some element is
the same object as `old`, the result is the original list with the first
such element removed and `new` appended at the end. -/
theorem edit_phone_identity_spec (r : Record) (old nw : PyField) :
    ((∀ q ∈ r.phones, pyEq old q = false) →
      r.edit_phone old nw = .error .valueError) ∧
    (∀ l₁ q l₂, r.phones = l₁ ++ q :: l₂ → pyEq old q = true →
      (∀ z ∈ l₁, pyEq old z = false) →
      r.edit_phone old nw = .ok { r with phones := l₁ ++ l₂ ++ [nw] }) := by
  constructor
  · intro h
    unfold Record.edit_phone Record.remove_phone
    rw [listRemove_eq_none old r.phones h]
    rfl
  · intro l₁ q l₂ hsplit hq h₁
    unfold Record.edit_phone Record.remove_phone
    rw [hsplit, listRemove_split old q l₁ l₂ hq h₁]
    simp [Record.add_phone, Except.map, List.append_assoc]

/-- C4 witness: editing via the identical object replaces it and appends
the new number at the end. -/
theorem edit_phone_identity_spec_witness :
    (Record.mk "Jan" [⟨0, "111111111"⟩, ⟨1, "222222222"⟩] [] none).edit_phone
        ⟨0, "111111111"⟩ ⟨2, "333333333"⟩ =
      .ok (Record.mk "Jan" [⟨1, "222222222"⟩, ⟨2, "333333333"⟩] [] none) := by
  have h := (edit_phone_identity_spec
    ⟨"Jan", [⟨0, "111111111"⟩, ⟨1, "222222222"⟩], [], none⟩
    ⟨0, "111111111"⟩ ⟨2, "333333333"⟩).2 [] ⟨0, "111111111"⟩ [⟨1, "222222222"⟩]
    rfl rfl (by intro z hz; cases hz)
  exact h

/-! ## String matching (`str.lower`, the `in` substring test) -/

/-- Python `str.lower()` (exact on the ASCII strings exercised here). -/
def lowerStr (s : String) : String :=
  ⟨s.toList.map Char.toLower⟩

/-- Python `needle in hay` on lists of characters: `needle` occurs as a
contiguous substring. -/
def isSubstring (p : List Char) (s : List Char) : Bool :=
  match s with
  | [] => p.isEmpty
  | _ :: t => p.isPrefixOf s || isSubstring p t

/-- Python `needle in hay` on strings. -/
def substrB (needle hay : String) : Bool :=
  isSubstring needle.toList hay.toList

lemma isSubstring_nil (s : List Char) : isSubstring [] s = true := by
  cases s with
  | nil => rfl
  | cons c t => simp [isSubstring, List.isPrefixOf]

/-! ## `AddressBook.find_record` (identical in both source files)

The book's backing map is a Python dict, which iterates its entries in
insertion order; it is modelled as an insertion-ordered association list
from integer id to record (the id-keyed variant of the source; the
name-keyed variant's `find_record` body is character-for-character the
same loop over `self.data.values()`). -/

/-- The id-keyed `AddressBook` of `Personal_Assistant.py`: a dict `data`
from id to record, the fresh-id counter `next_id`, and the freed-id pool
`free_ids` (a Python set). -/
structure AddressBook where
  data : List (Nat × Record)
  next_id : Nat
  free_ids : Finset Nat
  deriving DecidableEq

/-- `search_term.lower() in record.name.value.lower()`. -/
def matchesName (t : String) (r : Record) : Bool :=
  substrB (lowerStr t) (lowerStr r.name)

/-- `any(search_term in phone.value for phone in record.phones)`. -/
def matchesPhones (t : String) (r : Record) : Bool :=
  r.phones.any (fun p => substrB t p.value)

/-- `any(search_term in email.value for email in record.emails)`. -/
def matchesEmails (t : String) (r : Record) : Bool :=
  r.emails.any (fun e => substrB t e.value)

/-- What one loop iteration of `find_record` appends for one record: the
name branch appends and `continue`s; otherwise the phone loop appends at
most once (`break`) and then the email loop appends at most once. -/
def findContrib (t : String) (r : Record) : List Record :=
  if matchesName t r then [r]
  else (if matchesPhones t r then [r] else []) ++
       (if matchesEmails t r then [r] else [])

/-- `AddressBook.find_record`: the loop over `self.data.values()`
accumulating `found_records`. -/
def find_record (b : AddressBook) (t : String) : List Record :=
  b.data.flatMap (fun p => findContrib t p.2)

lemma mem_findContrib (t : String) (q r : Record) :
    r ∈ findContrib t q ↔
      r = q ∧ (matchesName t q = true ∨ matchesPhones t q = true ∨
        matchesEmails t q = true) := by
  unfold findContrib
  rcases hn : matchesName t q <;> rcases hp : matchesPhones t q <;>
    rcases he : matchesEmails t q <;> simp

/-- C3 counterexample: a record whose name does not match but whose phone
and email values both contain the search term is returned twice by
`find_record`, not once. -/
theorem find_record_duplicate_cex :
    let r : Record := ⟨"Jan", [⟨0, "123456789"⟩], [⟨1, "123a@b.c"⟩], none⟩
    let b : AddressBook := ⟨[(1, r)], 2, ∅⟩
    (find_record b "123").count r = 2 ∧
      ¬ (find_record b "123").count r ≤ 1 := by
  constructor
  · rfl
  · intro h
    simp only [show (find_record ⟨[(1, (⟨"Jan", [⟨0, "123456789"⟩],
      [⟨1, "123a@b.c"⟩], none⟩ : Record))], 2, ∅⟩ "123").count
      (⟨"Jan", [⟨0, "123456789"⟩], [⟨1, "123a@b.c"⟩], none⟩ : Record) = 2
      from rfl] at h
    omega

/-- C3 (amended): a record is included (one or more times) in
`find_record` exactly when the term is a case-insensitive substring of its
name or a case-sensitive substring of some phone or email value; each
matching entry appears at most once per field category — once if the name
matches (the other fields are then not consulted), otherwise at most once
for a phone match plus at most once for an email match — so a record whose
phone and email both match while its name does not appears twice. -/
theorem find_record_membership (b : AddressBook) (t : String) (r : Record) :
    (r ∈ find_record b t ↔
      (∃ p ∈ b.data, p.2 = r) ∧
        (matchesName t r = true ∨ matchesPhones t r = true ∨
          matchesEmails t r = true)) ∧
    (findContrib t r).count r ≤ 2 := by
  constructor
  · unfold find_record
    rw [List.mem_flatMap]
    constructor
    · rintro ⟨p, hp, hmem⟩
      rcases (mem_findContrib t p.2 r).mp hmem with ⟨rfl, hmatch⟩
      exact ⟨⟨p, hp, rfl⟩, hmatch⟩
    · rintro ⟨⟨p, hp, hval⟩, hmatch⟩
      exact ⟨p, hp, (mem_findContrib t p.2 r).mpr ⟨hval.symm, hval ▸ hmatch⟩⟩
  · unfold findContrib
    rcases hn : matchesName t r <;> rcases hp : matchesPhones t r <;>
      rcases he : matchesEmails t r <;> simp [List.count_cons]

/-- C10: searching with the empty string returns every record in the book
(in order), because the empty string is a substring of every lowered name,
so the name branch fires for each record. -/
theorem find_record_empty_term (b : AddressBook) :
    find_record b "" = b.data.map Prod.snd := by
  unfold find_record
  induction b.data with
  | nil => rfl
  | cons p l ih =>
    simp only [List.flatMap_cons, List.map_cons]
    rw [ih]
    have hname : matchesName "" p.2 = true := by
      unfold matchesName substrB
      exact isSubstring_nil _
    simp [findContrib, hname]

/-! ## `Phone.validate_phone` — `re.match(r"^\d{9}$", value)`

The regex engine is embedded operationally for this one pattern:
`re.match` anchors at position 0, `\d{9}` consumes nine digit characters,
and `$` (without `re.MULTILINE`) succeeds at the end of the string or just
before a final newline.  `\d` is modelled as the ASCII digits, which is
exact on ASCII input (Python's `\d` additionally accepts non-ASCII Unicode
decimal digits, which would only widen the accepted set further). -/

/-- A character accepted by the pattern's `\d` (ASCII fragment). -/
def isDigitPy (c : Char) : Bool :=
  c.isDigit

/-- Consume exactly `n` `\d`-characters from the front, returning the rest
of the input, or `none` when matching fails. -/
def matchDigits : Nat → List Char → Option (List Char)
  | 0, rest => some rest
  | _ + 1, [] => none
  | n + 1, c :: rest => if isDigitPy c then matchDigits n rest else none

/-- Python's `$` anchor (no `re.MULTILINE`): end of input, or immediately
before a newline that ends the input. -/
def endAnchor : List Char → Bool
  | [] => true
  | [c] => c == '\n'
  | _ :: _ :: _ => false

/-- `Phone.validate_phone` / `PhoneNumber.validate_phone`:
`re.compile(r"^\d{9}$").match(value) is not None`. -/
def validate_phone (s : String) : Bool :=
  match matchDigits 9 s.toList with
  | some rest => endAnchor rest
  | none => false

lemma matchDigits_eq_some (n : Nat) (l rest : List Char) :
    matchDigits n l = some rest ↔
      ∃ d, l = d ++ rest ∧ d.length = n ∧ d.all isDigitPy = true := by
  induction n generalizing l with
  | zero =>
    simp only [matchDigits, Option.some_inj]
    constructor
    · rintro rfl; exact ⟨[], rfl, rfl, rfl⟩
    · rintro ⟨d, rfl, hd, _⟩
      rw [List.length_eq_zero] at hd
      simp [hd]
  | succ n ih =>
    cases l with
    | nil =>
      simp only [matchDigits]
      constructor
      · intro h; cases h
      · rintro ⟨d, hd, hlen, _⟩
        rcases d with _ | ⟨c, d⟩
        · simp at hlen
        · simp at hd
    | cons c t =>
      simp only [matchDigits]
      rcases hc : isDigitPy c with hfalse | htrue
      · simp only [Bool.false_eq_true, if_false]
        constructor
        · intro h; cases h
        · rintro ⟨d, hd, hlen, hall⟩
          rcases d with _ | ⟨c', d⟩
          · simp at hlen
          · simp only [List.cons_append, List.cons.injEq] at hd
            rcases hd with ⟨rfl, _⟩
            simp [List.all_cons, hc] at hall
      · simp only [if_true, ih]
        constructor
        · rintro ⟨d, rfl, hlen, hall⟩
          exact ⟨c :: d, rfl, by simp [hlen], by simp [List.all_cons, hc, hall]⟩
        · rintro ⟨d, hd, hlen, hall⟩
          rcases d with _ | ⟨c', d⟩
          · simp at hlen
          · simp only [List.cons_append, List.cons.injEq] at hd
            rcases hd with ⟨rfl, rfl⟩
            simp only [List.all_cons, Bool.and_eq_true] at hall
            exact ⟨d, rfl, by simpa using hlen, hall.2⟩

/-- C8 counterexample: "123456789\n" has length 10 and contains a
non-digit, yet `validate_phone` returns `true`, because `$` in a Python
regex also matches just before a trailing newline. -/
theorem validate_phone_newline_cex :
    validate_phone "123456789\n" = true ∧
      "123456789\n".toList.length ≠ 9 ∧
      "123456789\n".toList.all isDigitPy ≠ true := by
  refine ⟨rfl, ?_, ?_⟩
  · intro h
    rw [show "123456789\n".toList.length = 10 from rfl] at h
    omega
  · intro h
    rw [show "123456789\n".toList.all isDigitPy = false from rfl] at h
    cases h

/-- C8 (amended): over ASCII input, `validate_phone(s)` succeeds exactly
for strings of nine digits optionally followed by one trailing newline:
nine ASCII digits validate, and the only other accepted strings are nine
digits plus a final '\n' (Python's `$` matches before a trailing
newline). -/
theorem validate_phone_characterization (s : String) :
    validate_phone s = true ↔
      ((s.toList.length = 9 ∧ s.toList.all isDigitPy = true) ∨
       (s.toList.length = 10 ∧ (s.toList.take 9).all isDigitPy = true ∧
         s.toList.getLast? = some '\n')) := by
  unfold validate_phone
  rcases hm : matchDigits 9 s.toList with _ | rest
  · simp only [Bool.false_eq_true, false_iff]
    intro hcase
    rcases hcase with ⟨hlen, hall⟩ | ⟨hlen, hall, _⟩
    · have : matchDigits 9 s.toList = some [] :=
        (matchDigits_eq_some 9 s.toList []).mpr
          ⟨s.toList, by simp, hlen, hall⟩
      rw [hm] at this; cases this
    · have hsplit : s.toList = s.toList.take 9 ++ s.toList.drop 9 :=
        (List.take_append_drop 9 s.toList).symm
      have : matchDigits 9 s.toList = some (s.toList.drop 9) :=
        (matchDigits_eq_some 9 s.toList (s.toList.drop 9)).mpr
          ⟨s.toList.take 9, hsplit, by rw [List.length_take, hlen]; decide, hall⟩
      rw [hm] at this; cases this
  · rcases (matchDigits_eq_some 9 s.toList rest).mp hm with ⟨d, hd, hlen, hall⟩
    rcases rest with _ | ⟨c, rest'⟩
    · simp only [endAnchor, true_iff]
      left
      constructor
      · rw [hd, List.length_append, hlen]; rfl
      · rw [hd, List.append_nil]; exact hall
    · rcases rest' with _ | ⟨c', rest''⟩
      · simp only [endAnchor, beq_iff_eq]
        constructor
        · intro hc
          right
          refine ⟨?_, ?_, ?_⟩
          · rw [hd, List.length_append, hlen]; rfl
          · rw [hd, List.take_left' hlen]; exact hall
          · rw [hd, hc, List.getLast?_concat]
        · rintro (⟨hlen10, _⟩ | ⟨_, _, hlast⟩)
          · rw [hd, List.length_append, hlen] at hlen10
            simp at hlen10
          · rw [hd, List.getLast?_concat] at hlast
            exact Option.some.inj hlast
      · simp only [endAnchor, Bool.false_eq_true, false_iff]
        rintro (⟨hlen9, _⟩ | ⟨hlen10, _, _⟩)
        · rw [hd, List.length_append, hlen] at hlen9
          simp at hlen9
        · rw [hd, List.length_append, hlen] at hlen10
          simp at hlen10
          omega

/-! ## The CPython calendar (`datetime` module)

Mirrors CPython's `_is_leap`, `_days_in_month`, `_days_before_month` and
`_ymd2ord`.  A `datetime` value is its calendar fields plus the
seconds-of-day (`datetime.now()` at midnight has `sec = 0`); subtraction
goes through `toordinal`, and `timedelta.days` is floor division of the
total signed difference by 86400 seconds. -/

/-- CPython `_is_leap`. -/
def isLeap (y : Nat) : Bool :=
  y % 4 == 0 && (y % 100 != 0 || y % 400 == 0)

/-- CPython `_days_in_month`. -/
def daysInMonth (y m : Nat) : Nat :=
  if m = 2 then (if isLeap y then 29 else 28)
  else if m = 4 ∨ m = 6 ∨ m = 9 ∨ m = 11 then 30
  else 31

/-- CPython `_DAYS_BEFORE_MONTH` table (non-leap cumulative days). -/
def monthOffset : Nat → Nat
  | 1 => 0
  | 2 => 31
  | 3 => 59
  | 4 => 90
  | 5 => 120
  | 6 => 151
  | 7 => 181
  | 8 => 212
  | 9 => 243
  | 10 => 273
  | 11 => 304
  | _ => 334

/-- CPython `_days_before_month`. -/
def daysBeforeMonth (y m : Nat) : Nat :=
  monthOffset m + (if 2 < m ∧ isLeap y = true then 1 else 0)

/-- CPython `_days_before_year`. -/
def daysBeforeYear (y : Nat) : Nat :=
  (y - 1) * 365 + (y - 1) / 4 - (y - 1) / 100 + (y - 1) / 400

/-- CPython `_ymd2ord`: proleptic-Gregorian ordinal of a date. -/
def toOrdinal (y m d : Nat) : Nat :=
  daysBeforeYear y + daysBeforeMonth y m + d

/-- CPython `_check_date_fields`: the check performed by `strptime` and by
`date.replace` (which raises `ValueError` when it fails), including the
`MINYEAR <= year <= MAXYEAR` bound (`MINYEAR = 1`, `MAXYEAR = 9999`). -/
def validDate (y m d : Nat) : Bool :=
  decide (1 ≤ y ∧ y ≤ 9999 ∧ 1 ≤ m ∧ m ≤ 12 ∧ 1 ≤ d ∧ d ≤ daysInMonth y m)

/-- A Python `datetime`: calendar date plus seconds within the day
(`0 ≤ sec < 86400`; sub-second precision is irrelevant to `.days`). -/
structure DateTime where
  year : Nat
  month : Nat
  day : Nat
  sec : Nat
  deriving DecidableEq, Repr

/-- Python `datetime` `<`: field-lexicographic comparison. -/
def dtLt (a b : DateTime) : Bool :=
  decide (a.year < b.year ∨ (a.year = b.year ∧
    (a.month < b.month ∨ (a.month = b.month ∧
      (a.day < b.day ∨ (a.day = b.day ∧ a.sec < b.sec))))))

/-- `(a - b).days` for Python datetimes: the signed difference in seconds,
floor-divided by 86400 (Python `timedelta` normalization). -/
def dtSubDays (a b : DateTime) : Int :=
  (((toOrdinal a.year a.month a.day : Int) -
      toOrdinal b.year b.month b.day) * 86400 +
    ((a.sec : Int) - b.sec)).fdiv 86400

/-- `Record.days_to_birthday` (`days_to_birthdate` in the other file) for a
record whose birthdate string parses as `(bY, bM, bD)`:
`today = datetime.now()` is the full datetime `now`;
`bday.replace(year=today.year)` keeps the month/day and raises
`ValueError` when that day does not exist in the target year (Feb 29 in a
non-leap year); the comparison `today > next_birthday` includes the time
of day; the result is `(next_birthday - today).days`. -/
def daysToBirthday (_bY bM bD : Nat) (now : DateTime) : Except PyErr Int :=
  if validDate now.year bM bD then
    if dtLt ⟨now.year, bM, bD, 0⟩ now then
      if validDate (now.year + 1) bM bD then
        .ok (dtSubDays ⟨now.year + 1, bM, bD, 0⟩ now)
      else .error .valueError
    else .ok (dtSubDays ⟨now.year, bM, bD, 0⟩ now)
  else .error .valueError

lemma fdiv_86400_eq (a q : Int) (h1 : 86400 * q ≤ a)
    (h2 : a < 86400 * (q + 1)) : a.fdiv 86400 = q := by
  rw [Int.fdiv_eq_ediv _ (by norm_num)]
  omega

/-- C5 counterexample: with birthdate 2000-03-15 and `datetime.now()` at
noon on 2024-03-10, `days_to_birthday` returns 4, not the 5 a date-only
comparison would give: the subtraction `next_birthday - today` keeps the
time of day and `timedelta.days` floors it away. -/
theorem days_to_birthday_noon_cex :
    daysToBirthday 2000 3 15 ⟨2024, 3, 10, 43200⟩ = .ok 4 ∧ (4 : Int) ≠ 5 := by
  constructor
  · rfl
  · decide

/-- C5 (amended): the comparison and subtraction use full datetimes, so the
time of day is not ignored: for birthdate 2000-03-15 the result at
2024-03-10 is 5 only when `now` is exactly midnight and 4 at any later
second of that day; at 2024-03-20 the code does roll to 2025-03-15, and
returns the 360-day date difference only at exact midnight, 359
otherwise. -/
theorem days_to_birthday_time_of_day (s : Nat) (hs : s < 86400) :
    daysToBirthday 2000 3 15 ⟨2024, 3, 10, s⟩ =
      .ok (if s = 0 then 5 else 4) ∧
    daysToBirthday 2000 3 15 ⟨2024, 3, 20, s⟩ =
      .ok (if s = 0 then 360 else 359) := by
  constructor
  · have h2 : dtLt ⟨2024, 3, 15, 0⟩ ⟨2024, 3, 10, s⟩ = false := by
      simp [dtLt]
    simp only [daysToBirthday, show validDate 2024 3 15 = true from rfl, h2,
      Bool.false_eq_true, if_false, if_true]
    have hord : (toOrdinal 2024 3 15 : Int) - toOrdinal 2024 3 10 = 5 := by
      decide
    simp only [dtSubDays, hord]
    rcases Nat.eq_zero_or_pos s with rfl | hpos
    · rfl
    · rw [if_neg (by omega)]
      congr 1
      apply fdiv_86400_eq <;> omega
  · have h2 : dtLt ⟨2024, 3, 15, 0⟩ ⟨2024, 3, 20, s⟩ = true := by
      simp [dtLt]
    simp only [daysToBirthday, show validDate 2024 3 15 = true from rfl,
      show validDate 2025 3 15 = true from rfl, h2, if_true]
    have hord : (toOrdinal 2025 3 15 : Int) - toOrdinal 2024 3 20 = 360 := by
      decide
    simp only [dtSubDays, hord]
    rcases Nat.eq_zero_or_pos s with rfl | hpos
    · rfl
    · rw [if_neg (by omega)]
      congr 1
      apply fdiv_86400_eq <;> omega

/-- C5 witness: at exact midnight the two scenario values are 5 and 360. -/
theorem days_to_birthday_time_of_day_witness :
    daysToBirthday 2000 3 15 ⟨2024, 3, 10, 0⟩ = .ok 5 ∧
    daysToBirthday 2000 3 15 ⟨2024, 3, 20, 0⟩ = .ok 360 := by
  have h := days_to_birthday_time_of_day 0 (by decide)
  simpa using h

/-! ### Calendar arithmetic toolkit -/

lemma validDate_eq_true (y m d : Nat) :
    validDate y m d = true ↔
      1 ≤ y ∧ y ≤ 9999 ∧ 1 ≤ m ∧ m ≤ 12 ∧ 1 ≤ d ∧ d ≤ daysInMonth y m := by
  simp [validDate]

lemma isLeap_succ (y : Nat) (h : isLeap y = true) : isLeap (y + 1) = false := by
  simp only [isLeap, Bool.and_eq_true, beq_iff_eq] at h
  simp only [isLeap, Bool.and_eq_false_iff, beq_eq_false_iff_ne]
  left
  omega

lemma daysBeforeMonth_step (y m : Nat) (h1 : 1 ≤ m) (h2 : m ≤ 11) :
    daysBeforeMonth y (m + 1) = daysBeforeMonth y m + daysInMonth y m := by
  interval_cases m <;> rcases hL : isLeap y <;>
    simp [daysBeforeMonth, monthOffset, daysInMonth, hL]

lemma daysBeforeMonth_mono (y m m' : Nat) (h1 : 1 ≤ m) (h : m ≤ m')
    (h2 : m' ≤ 12) : daysBeforeMonth y m ≤ daysBeforeMonth y m' := by
  induction m' with
  | zero => omega
  | succ k ih =>
    rcases Nat.lt_or_ge m (k + 1) with hlt | hge
    · have hk : daysBeforeMonth y m ≤ daysBeforeMonth y k :=
        ih (by omega) (by omega)
      have hstep := daysBeforeMonth_step y k (by omega) (by omega)
      omega
    · have : m = k + 1 := by omega
      rw [this]

lemma dayOfYear_le (y m d : Nat) (h : validDate y m d = true) :
    daysBeforeMonth y m + d ≤ 365 + (if isLeap y = true then 1 else 0) := by
  rw [validDate_eq_true] at h
  obtain ⟨_, _, h1, h2, _, h4⟩ := h
  interval_cases m <;> rcases hL : isLeap y <;>
    simp [daysBeforeMonth, monthOffset, daysInMonth, hL] at h4 ⊢ <;> omega

lemma dayOfYear_lt (y m d m' d' : Nat) (hm : 1 ≤ m) (hm12 : m ≤ 12)
    (hd : d ≤ daysInMonth y m) (hm' : 1 ≤ m') (hm'12 : m' ≤ 12)
    (hd' : 1 ≤ d') (hlex : m < m' ∨ (m = m' ∧ d < d')) :
    daysBeforeMonth y m + d < daysBeforeMonth y m' + d' := by
  rcases hlex with hlt | ⟨rfl, hdlt⟩
  · have hstep := daysBeforeMonth_step y m hm (by omega)
    have hmono := daysBeforeMonth_mono y (m + 1) m' (by omega) (by omega) hm'12
    omega
  · omega

lemma isLeap_iff (y : Nat) :
    isLeap y = true ↔ y % 4 = 0 ∧ (y % 100 ≠ 0 ∨ y % 400 = 0) := by
  simp [isLeap]

set_option maxHeartbeats 2000000 in
lemma daysBeforeYear_succ (y : Nat) (hy : 1 ≤ y) :
    daysBeforeYear (y + 1) =
      daysBeforeYear y + 365 + (if isLeap y = true then 1 else 0) := by
  unfold daysBeforeYear
  rcases hL : isLeap y
  · have h : ¬(y % 4 = 0 ∧ (y % 100 ≠ 0 ∨ y % 400 = 0)) := by
      rw [← isLeap_iff, hL]
      simp
    simp only [hL, Bool.false_eq_true, if_false]
    omega
  · have h : y % 4 = 0 ∧ (y % 100 ≠ 0 ∨ y % 400 = 0) := (isLeap_iff y).mp hL
    simp only [hL, if_true]
    omega

lemma validDate_any_year (bY bM bD y : Nat) (hb : validDate bY bM bD = true)
    (hno : ¬(bM = 2 ∧ bD = 29)) (hy : 1 ≤ y) (hy9 : y ≤ 9999) :
    validDate y bM bD = true := by
  rw [validDate_eq_true] at hb ⊢
  obtain ⟨_, _, h1, h2, h3, h4⟩ := hb
  refine ⟨hy, hy9, h1, h2, h3, ?_⟩
  by_cases hm2 : bM = 2
  · subst hm2
    have hne : bD ≠ 29 := fun h' => hno ⟨rfl, h'⟩
    have hbD : bD ≤ 28 := by
      rcases hL : isLeap bY <;> simp [daysInMonth, hL] at h4 <;> omega
    rcases hL : isLeap y <;> simp [daysInMonth, hL] <;> omega
  · have heq : daysInMonth y bM = daysInMonth bY bM := by
      unfold daysInMonth
      rw [if_neg hm2, if_neg hm2]
    omega

/-- C6 counterexample: 2000-02-29 is a valid calendar birthdate, yet with
`datetime.now()` in the non-leap year 2023 `days_to_birthday` raises
`ValueError` (from `bday.replace(year=2023)`) instead of returning an
integer. -/
theorem days_to_birthday_feb29_cex :
    validDate 2000 2 29 = true ∧
      daysToBirthday 2000 2 29 ⟨2023, 1, 1, 0⟩ = .error .valueError := by
  constructor
  · rfl
  · rfl

/-- C6 (amended): for every valid birthdate other than February 29, and
with the current year below `MAXYEAR` (9999), the operation completes
without error and the result lies in [0, 366]; for a February 29 birthdate
with a non-leap current year, `replace` raises `ValueError` instead (the
code has no clamping policy); and in year 9999 with the birthday already
past, the roll to year 10000 exceeds `MAXYEAR`, so `replace` also raises
`ValueError`. -/
theorem days_to_birthday_bounds (bY bM bD : Nat) (now : DateTime)
    (hb : validDate bY bM bD = true)
    (hn : validDate now.year now.month now.day = true)
    (hs : now.sec < 86400) :
    (¬(bM = 2 ∧ bD = 29) → now.year < 9999 →
      ∃ n : Int, daysToBirthday bY bM bD now = .ok n ∧ 0 ≤ n ∧ n ≤ 366) ∧
    (bM = 2 → bD = 29 → isLeap now.year = false →
      daysToBirthday bY bM bD now = .error .valueError) ∧
    (now.year = 9999 → dtLt ⟨now.year, bM, bD, 0⟩ now = true →
      daysToBirthday bY bM bD now = .error .valueError) := by
  obtain ⟨hy1, hy9, hnm1, hnm12, hnd1, hndM⟩ := (validDate_eq_true _ _ _).mp hn
  refine ⟨?_, ?_, ?_⟩
  · intro hno hylt
    have hv1 : validDate now.year bM bD = true :=
      validDate_any_year bY bM bD now.year hb hno hy1 hy9
    have hv2 : validDate (now.year + 1) bM bD = true :=
      validDate_any_year bY bM bD (now.year + 1) hb hno (by omega) (by omega)
    obtain ⟨_, _, hbm1, hbm12, hbd1, hbdM⟩ := (validDate_eq_true _ _ _).mp hv1
    unfold daysToBirthday
    rw [if_pos hv1]
    rcases hcmp : dtLt ⟨now.year, bM, bD, 0⟩ now
    · rw [if_neg (by simp [hcmp])]
      refine ⟨dtSubDays ⟨now.year, bM, bD, 0⟩ now, rfl, ?_⟩
      have hlex : now.month < bM ∨ (now.month = bM ∧
          (now.day < bD ∨ (now.day = bD ∧ now.sec = 0))) := by
        simp [dtLt] at hcmp
        omega
      have hA : toOrdinal now.year bM bD =
          daysBeforeYear now.year + (daysBeforeMonth now.year bM + bD) := by
        unfold toOrdinal
        omega
      have hB : toOrdinal now.year now.month now.day =
          daysBeforeYear now.year +
            (daysBeforeMonth now.year now.month + now.day) := by
        unfold toOrdinal
        omega
      have hubB : daysBeforeMonth now.year bM + bD ≤
          365 + (if isLeap now.year = true then 1 else 0) :=
        dayOfYear_le _ _ _ hv1
      have hrel : daysBeforeMonth now.year now.month + now.day <
            daysBeforeMonth now.year bM + bD ∨
          (daysBeforeMonth now.year now.month + now.day =
            daysBeforeMonth now.year bM + bD ∧ now.sec = 0) := by
        rcases hlex with h | ⟨heq, h2⟩
        · exact Or.inl (dayOfYear_lt now.year now.month now.day bM bD
            hnm1 hnm12 hndM hbm1 hbm12 hbd1 (Or.inl h))
        · rcases h2 with h | ⟨heq2, hsec⟩
          · exact Or.inl (dayOfYear_lt now.year now.month now.day bM bD
              hnm1 hnm12 hndM hbm1 hbm12 hbd1 (Or.inr ⟨heq, h⟩))
          · exact Or.inr ⟨by rw [heq, heq2], hsec⟩
      have hsub : dtSubDays ⟨now.year, bM, bD, 0⟩ now =
          (((toOrdinal now.year bM bD : Int) -
              toOrdinal now.year now.month now.day) * 86400 +
            ((0 : Int) - now.sec)).fdiv 86400 := rfl
      rw [hsub, Int.fdiv_eq_ediv _ (by norm_num), hA, hB]
      rcases hL : isLeap now.year
      · simp only [hL, Bool.false_eq_true, if_false] at hubB
        omega
      · simp only [hL, if_true] at hubB
        omega
    · rw [if_pos rfl, if_pos hv2]
      refine ⟨dtSubDays ⟨now.year + 1, bM, bD, 0⟩ now, rfl, ?_⟩
      have hlex : bM < now.month ∨ (bM = now.month ∧
          (bD < now.day ∨ (bD = now.day ∧ 0 < now.sec))) := by
        simp [dtLt] at hcmp
        omega
      have hstep := daysBeforeYear_succ now.year hy1
      have hA : toOrdinal (now.year + 1) bM bD =
          daysBeforeYear (now.year + 1) +
            (daysBeforeMonth (now.year + 1) bM + bD) := by
        unfold toOrdinal
        omega
      have hB : toOrdinal now.year now.month now.day =
          daysBeforeYear now.year +
            (daysBeforeMonth now.year now.month + now.day) := by
        unfold toOrdinal
        omega
      have hubN : daysBeforeMonth now.year now.month + now.day ≤
          365 + (if isLeap now.year = true then 1 else 0) :=
        dayOfYear_le _ _ _ hn
      have hrelB : daysBeforeMonth now.year bM + bD ≤
          daysBeforeMonth now.year now.month + now.day := by
        rcases hlex with h | ⟨heq, h2⟩
        · exact le_of_lt (dayOfYear_lt now.year bM bD now.month now.day
            hbm1 hbm12 hbdM hnm1 hnm12 hnd1 (Or.inl h))
        · rcases h2 with h | ⟨heq2, _⟩
          · exact le_of_lt (dayOfYear_lt now.year bM bD now.month now.day
              hbm1 hbm12 hbdM hnm1 hnm12 hnd1 (Or.inr ⟨heq, h⟩))
          · rw [heq, heq2]
      have hadjA : daysBeforeMonth (now.year + 1) bM ≤
          daysBeforeMonth now.year bM + 1 := by
        unfold daysBeforeMonth
        split <;> split <;> omega
      have hadjB : isLeap now.year = true →
          daysBeforeMonth (now.year + 1) bM ≤ daysBeforeMonth now.year bM := by
        intro hL
        have h1 := isLeap_succ now.year hL
        unfold daysBeforeMonth
        rw [h1]
        simp only [Bool.false_eq_true, and_false, if_false]
        omega
      have hsub : dtSubDays ⟨now.year + 1, bM, bD, 0⟩ now =
          (((toOrdinal (now.year + 1) bM bD : Int) -
              toOrdinal now.year now.month now.day) * 86400 +
            ((0 : Int) - now.sec)).fdiv 86400 := rfl
      rw [hsub, Int.fdiv_eq_ediv _ (by norm_num), hA, hB]
      rcases hL : isLeap now.year
      · simp only [hL, Bool.false_eq_true, if_false] at hstep hubN
        omega
      · simp only [hL, if_true] at hstep hubN
        replace hadjB := hadjB hL
        omega
  · rintro rfl rfl hL
    have hfalse : validDate now.year 2 29 = false := by
      rcases h : validDate now.year 2 29
      · rfl
      · exfalso
        obtain ⟨_, _, _, _, _, h4⟩ := (validDate_eq_true _ _ _).mp h
        simp [daysInMonth, hL] at h4
    unfold daysToBirthday
    rw [if_neg (by simp [hfalse])]
  · intro h9999 hlt
    have hfalse : validDate (now.year + 1) bM bD = false := by
      rcases h : validDate (now.year + 1) bM bD
      · rfl
      · exfalso
        obtain ⟨_, h9, _, _, _, _⟩ := (validDate_eq_true _ _ _).mp h
        omega
    unfold daysToBirthday
    rcases hv : validDate now.year bM bD
    · rw [if_neg (by simp [hv])]
    · rw [if_pos rfl, if_pos hlt, if_neg (by simp [hfalse])]

/-- C6 witness: birthdate 2000-03-15 and `now` = midnight 2024-03-10 yield
an integer in [0, 366] with no error. -/
theorem days_to_birthday_bounds_witness :
    ∃ n : Int, daysToBirthday 2000 3 15 ⟨2024, 3, 10, 0⟩ = .ok n ∧
      0 ≤ n ∧ n ≤ 366 :=
  (days_to_birthday_bounds 2000 3 15 ⟨2024, 3, 10, 0⟩ (by decide) (by decide)
    (by decide)).1 (by decide) (by decide)

/-! ## `AddressBook.upcoming_birthdays` (`project_end.py`)

`today = datetime.now().date()` is date-only, so subtraction of dates
yields an exact day count (no time-of-day flooring here).  The loop
iterates `self.data.values()` in order, appends `record.name.value` (the
name only) when `(next_birthday - today).days <= days`, and any
`ValueError` from `bday.replace(...)` aborts the whole call. -/

/-- A Python `date` (no time of day). -/
structure PyDate where
  year : Nat
  month : Nat
  day : Nat
  deriving DecidableEq, Repr

/-- Python `date` `<`: field-lexicographic comparison. -/
def dateLt (a b : PyDate) : Bool :=
  decide (a.year < b.year ∨ (a.year = b.year ∧
    (a.month < b.month ∨ (a.month = b.month ∧ a.day < b.day))))

/-- The per-record body of `upcoming_birthdays`: `(next_birthday - today).days`
for a birthdate with month `bM`, day `bD`, where `next_birthday` is
`bday.replace(year=today.year)` rolled by one year when already past
(`today > next_birthday`); `replace` raises `ValueError` when the day does
not exist in the target year. -/
def nextBirthdayDays (bM bD : Nat) (t : PyDate) : Except PyErr Int :=
  if validDate t.year bM bD then
    if dateLt ⟨t.year, bM, bD⟩ t then
      if validDate (t.year + 1) bM bD then
        .ok ((toOrdinal (t.year + 1) bM bD : Int) -
          toOrdinal t.year t.month t.day)
      else .error .valueError
    else .ok ((toOrdinal t.year bM bD : Int) -
      toOrdinal t.year t.month t.day)
  else .error .valueError

/-- `AddressBook.upcoming_birthdays(days)` over the book's records in
order, with `today` made explicit: collects the names (only) of records
whose birthdate lies within `days` days; an uncaught `ValueError` aborts
the whole loop. -/
def upcomingBirthdays (recs : List Record) (days : Int) (t : PyDate) :
    Except PyErr (List String) :=
  match recs with
  | [] => .ok []
  | r :: rest =>
    match r.birthday with
    | none => upcomingBirthdays rest days t
    | some (_, bM, bD) =>
      match nextBirthdayDays bM bD t with
      | .error e => .error e
      | .ok n =>
        match upcomingBirthdays rest days t with
        | .error e => .error e
        | .ok names => .ok (if n ≤ days then r.name :: names else names)

/-- The record filter that `upcomingBirthdays` realizes when no record
raises: keep records having a birthdate within `days` days, and list their
names. -/
def upNames (recs : List Record) (days : Int) (t : PyDate) : List String :=
  (recs.filter (fun r =>
    match r.birthday with
    | none => false
    | some (_, bM, bD) =>
      match nextBirthdayDays bM bD t with
      | .error _ => false
      | .ok n => decide (n ≤ days))).map Record.name

/-- A record's birthdate is valid and is not February 29 (such a record
can never make `replace` raise). -/
def birthdaySafe (r : Record) : Bool :=
  r.birthday.all (fun p =>
    validDate p.1 p.2.1 p.2.2 && !(p.2.1 == 2 && p.2.2 == 29))

lemma nextBirthdayDays_ok (bM bD : Nat) (t : PyDate)
    (ht : validDate t.year t.month t.day = true)
    (hb : validDate t.year bM bD = true)
    (hb' : validDate (t.year + 1) bM bD = true) :
    ∃ n : Int, nextBirthdayDays bM bD t = .ok n ∧ 0 ≤ n := by
  obtain ⟨hy1, hy9, hnm1, hnm12, hnd1, hndM⟩ := (validDate_eq_true _ _ _).mp ht
  obtain ⟨_, _, hbm1, hbm12, hbd1, hbdM⟩ := (validDate_eq_true _ _ _).mp hb
  unfold nextBirthdayDays
  rw [if_pos hb]
  rcases hcmp : dateLt ⟨t.year, bM, bD⟩ t
  · rw [if_neg (by simp [hcmp])]
    refine ⟨_, rfl, ?_⟩
    have hlex : t.month < bM ∨ (t.month = bM ∧ t.day ≤ bD) := by
      simp [dateLt] at hcmp
      omega
    have hA : toOrdinal t.year bM bD =
        daysBeforeYear t.year + (daysBeforeMonth t.year bM + bD) := by
      unfold toOrdinal
      omega
    have hB : toOrdinal t.year t.month t.day =
        daysBeforeYear t.year +
          (daysBeforeMonth t.year t.month + t.day) := by
      unfold toOrdinal
      omega
    have hrel : daysBeforeMonth t.year t.month + t.day ≤
        daysBeforeMonth t.year bM + bD := by
      rcases hlex with h | ⟨heq, h2⟩
      · exact le_of_lt (dayOfYear_lt t.year t.month t.day bM bD
          hnm1 hnm12 hndM hbm1 hbm12 hbd1 (Or.inl h))
      · rcases Nat.lt_or_ge t.day bD with h | h
        · exact le_of_lt (dayOfYear_lt t.year t.month t.day bM bD
            hnm1 hnm12 hndM hbm1 hbm12 hbd1 (Or.inr ⟨heq, h⟩))
        · have : t.day = bD := by omega
          rw [heq, this]
    rw [hA, hB]
    omega
  · rw [if_pos rfl, if_pos hb']
    refine ⟨_, rfl, ?_⟩
    have hstep := daysBeforeYear_succ t.year hy1
    have hA : toOrdinal (t.year + 1) bM bD =
        daysBeforeYear (t.year + 1) +
          (daysBeforeMonth (t.year + 1) bM + bD) := by
      unfold toOrdinal
      omega
    have hB : toOrdinal t.year t.month t.day =
        daysBeforeYear t.year +
          (daysBeforeMonth t.year t.month + t.day) := by
      unfold toOrdinal
      omega
    have hubN : daysBeforeMonth t.year t.month + t.day ≤
        365 + (if isLeap t.year = true then 1 else 0) :=
      dayOfYear_le _ _ _ ht
    rw [hA, hB]
    rcases hL : isLeap t.year
    · simp only [hL, Bool.false_eq_true, if_false] at hstep hubN
      omega
    · simp only [hL, if_true] at hstep hubN
      omega

/-- C9 counterexample: with a single record whose (valid) birthdate is
2000-02-29 and `today` in the non-leap year 2023, `upcoming_birthdays(-1)`
raises `ValueError` rather than producing an empty result. -/
theorem upcoming_birthdays_feb29_cex :
    let r : Record := ⟨"Jan", [], [], some (2000, 2, 29)⟩
    validDate 2000 2 29 = true ∧
      upcomingBirthdays [r] (-1) ⟨2023, 1, 1⟩ = .error .valueError := by
  constructor
  · rfl
  · rfl

/-- C9 (amended): when no record's birthdate is February 29 (and all
birthdates are valid) and `today`'s year is below `MAXYEAR` (9999),
`upcoming_birthdays` returns — for each record with a birthdate whose
date-only days-to-birthday is at most `within_days` — the record's *name*
(not a (name, days) pair), in book order; a birthday falling exactly on
`today` contributes 0 and is included when `within_days = 0`; a negative
`within_days` yields the empty result.  A February 29 birthdate — or a
passed birthday in year 9999, whose roll to year 10000 exceeds `MAXYEAR`
— can instead abort the whole call with `ValueError`. -/
theorem upcoming_birthdays_amended (recs : List Record) (days : Int)
    (t : PyDate) (ht : validDate t.year t.month t.day = true)
    (ht9 : t.year < 9999)
    (hsafe : ∀ r ∈ recs, birthdaySafe r = true) :
    upcomingBirthdays recs days t = .ok (upNames recs days t) ∧
    (days < 0 → upNames recs days t = []) ∧
    (∀ r ∈ recs, ∀ bY, r.birthday = some (bY, t.month, t.day) →
      0 ≤ days → r.name ∈ upNames recs days t) := by
  obtain ⟨hy1, hy9, hnm1, hnm12, hnd1, hndM⟩ := (validDate_eq_true _ _ _).mp ht
  have hok : ∀ r ∈ recs, ∀ bY bM bD, r.birthday = some (bY, bM, bD) →
      ∃ n : Int, nextBirthdayDays bM bD t = .ok n ∧ 0 ≤ n := by
    intro r hr bY bM bD hbd
    have hsr := hsafe r hr
    unfold birthdaySafe at hsr
    rw [hbd] at hsr
    simp only [Option.all_some, Bool.and_eq_true, Bool.not_eq_true',
      Bool.and_eq_false_iff, beq_eq_false_iff_ne, ne_eq] at hsr
    obtain ⟨hv, hno⟩ := hsr
    have hno' : ¬(bM = 2 ∧ bD = 29) := by
      rcases hno with h | h
      · exact fun hc => h hc.1
      · exact fun hc => h hc.2
    exact nextBirthdayDays_ok bM bD t ht
      (validDate_any_year bY bM bD t.year hv hno' hy1 hy9)
      (validDate_any_year bY bM bD (t.year + 1) hv hno' (by omega) (by omega))
  refine ⟨?_, ?_, ?_⟩
  · clear hsafe
    induction recs with
    | nil => rfl
    | cons r rest ih =>
      have hok' : ∀ q ∈ rest, ∀ bY bM bD, q.birthday = some (bY, bM, bD) →
          ∃ n : Int, nextBirthdayDays bM bD t = .ok n ∧ 0 ≤ n :=
        fun q hq => hok q (by simp [hq])
      have hrest := ih hok'
      unfold upNames at hrest
      unfold upcomingBirthdays upNames
      rcases hbd : r.birthday with _ | ⟨bY, bM, bD⟩
      · simp only [hbd, List.filter_cons, hrest, Bool.false_eq_true, if_false]
      · obtain ⟨n, hn, _⟩ := hok r (by simp) bY bM bD hbd
        simp only [hbd, hn, hrest, List.filter_cons]
        rcases hle : decide (n ≤ days)
        · have hnle : ¬ n ≤ days := of_decide_eq_false hle
          simp only [Bool.false_eq_true, if_false, if_neg hnle]
        · have hle' : n ≤ days := of_decide_eq_true hle
          simp only [if_true, if_pos hle', List.map_cons]
  · intro hneg
    unfold upNames
    rw [List.filter_eq_nil_iff.mpr, List.map_nil]
    intro r hr
    rcases hbd : r.birthday with _ | ⟨bY, bM, bD⟩
    · simp
    · obtain ⟨n, hn, hn0⟩ := hok r hr bY bM bD hbd
      simp only [hn]
      simp
      omega
  · intro r hr bY hbd hdays
    have hv : validDate t.year t.month t.day = true := ht
    have hn : nextBirthdayDays t.month t.day t = .ok 0 := by
      unfold nextBirthdayDays
      rw [if_pos hv, if_neg (by simp [dateLt])]
      simp
    unfold upNames
    apply List.mem_map.mpr
    refine ⟨r, ?_, rfl⟩
    apply List.mem_filter.mpr
    refine ⟨hr, ?_⟩
    rw [hbd]
    simp only [hn]
    simpa using hdays

/-- C9 witness: one record with birthdate 2000-03-15, `today` = 2024-03-10
and `within_days` = 10 — the record's name is listed, the negative-days
clause holds vacuously, and the exact-today clause holds vacuously. -/
theorem upcoming_birthdays_amended_witness :
    upcomingBirthdays [(⟨"Jan", [], [], some (2000, 3, 15)⟩ : Record)] 10
        ⟨2024, 3, 10⟩ =
      .ok (upNames [⟨"Jan", [], [], some (2000, 3, 15)⟩] 10 ⟨2024, 3, 10⟩) ∧
    ((10 : Int) < 0 →
      upNames [⟨"Jan", [], [], some (2000, 3, 15)⟩] 10 ⟨2024, 3, 10⟩ = []) ∧
    (∀ r ∈ [(⟨"Jan", [], [], some (2000, 3, 15)⟩ : Record)], ∀ bY,
      r.birthday = some (bY, 3, 10) → (0 : Int) ≤ 10 →
      r.name ∈ upNames [⟨"Jan", [], [], some (2000, 3, 15)⟩] 10 ⟨2024, 3, 10⟩) :=
  upcoming_birthdays_amended [⟨"Jan", [], [], some (2000, 3, 15)⟩] 10
    ⟨2024, 3, 10⟩ (by decide) (by decide) (by decide)

/-! ## `AddressBook` identifier management (`Personal_Assistant.py`)

`add_record` first runs
`while self.next_id in self.data or self.next_id in self.free_ids:
    self.next_id += 1`,
then assigns `min(self.free_ids)` (removing it from the pool) if the pool
is non-empty, else assigns `next_id` and bumps it; finally it stores the
record under the assigned id (`self.data[record.id] = record`).
`delete_record_by_id` (after the interactive-input parsing, which is shell
I/O) deletes a present id from the dict and adds it to `free_ids`. -/

/-- The identifiers currently keying records, in dict order. -/
def keys (b : AddressBook) : List Nat :=
  b.data.map Prod.fst

/-- The `while self.next_id in … : self.next_id += 1` loop: starting from
`n`, skip past every value in `used`.  The Python loop terminates because
`used` is finite; `fuel = used.card + 1` steps always suffice (pigeonhole
over the interval of scanned values), which `skipUsed_not_mem` below
verifies by establishing the loop's postcondition. -/
def findFree (used : Finset Nat) (n : Nat) : Nat → Nat
  | 0 => n
  | fuel + 1 => if n ∈ used then findFree used (n + 1) fuel else n

/-- The skip loop run with enough fuel to terminate exactly like Python's. -/
def skipUsed (used : Finset Nat) (n : Nat) : Nat :=
  findFree used n (used.card + 1)

/-- Python `dict[k] = v`: overwrite in place if the key is present
(keeping its position), else append the new binding. -/
def dictInsert (k : Nat) (v : Record) (l : List (Nat × Record)) :
    List (Nat × Record) :=
  if k ∈ l.map Prod.fst then
    l.map (fun p => if p.1 = k then (k, v) else p)
  else l ++ [(k, v)]

/-- `AddressBook.add_record`, returning the assigned id along with the new
state. -/
def addAssign (b : AddressBook) (r : Record) : Nat × AddressBook :=
  if h : b.free_ids.Nonempty then
    (b.free_ids.min' h,
      ⟨dictInsert (b.free_ids.min' h) r b.data,
        skipUsed ((keys b).toFinset ∪ b.free_ids) b.next_id,
        b.free_ids.erase (b.free_ids.min' h)⟩)
  else
    (skipUsed ((keys b).toFinset ∪ b.free_ids) b.next_id,
      ⟨dictInsert (skipUsed ((keys b).toFinset ∪ b.free_ids) b.next_id)
          r b.data,
        skipUsed ((keys b).toFinset ∪ b.free_ids) b.next_id + 1,
        b.free_ids⟩)

/-- `AddressBook.delete_record_by_id` after input parsing: delete a present
id from the dict (keeping the order of the rest) and return it to the freed
pool; ids not present leave the book unchanged. -/
def delete_record_by_id (b : AddressBook) (i : Nat) : AddressBook :=
  if i ∈ keys b then
    ⟨b.data.filter (fun p => p.1 ≠ i), b.next_id, insert i b.free_ids⟩
  else b

/-- One user-level mutation of the book. -/
inductive Op where
  | add (r : Record)
  | del (i : Nat)

/-- Apply one operation. -/
def step (b : AddressBook) : Op → AddressBook
  | .add r => (addAssign b r).2
  | .del i => delete_record_by_id b i

/-- Run a sequence of operations from the fresh book created by
`AddressBook.__init__` (`next_id = 1`, `free_ids = set()`). -/
def run (ops : List Op) : AddressBook :=
  ops.foldl step ⟨[], 1, ∅⟩

/-- The state invariant of the id-allocation scheme: unique keys, keys
disjoint from the freed pool, and every key and freed id below the fresh
counter. -/
def Inv (b : AddressBook) : Prop :=
  (keys b).Nodup ∧ (∀ k ∈ keys b, k ∉ b.free_ids) ∧
    (∀ k ∈ keys b, k < b.next_id) ∧ (∀ k ∈ b.free_ids, k < b.next_id)

lemma findFree_ge (used : Finset Nat) (n fuel : Nat) :
    n ≤ findFree used n fuel := by
  induction fuel generalizing n with
  | zero => exact le_refl n
  | succ f ih =>
    unfold findFree
    split
    · exact le_trans (by omega) (ih (n + 1))
    · exact le_refl n

lemma findFree_not_mem (used : Finset Nat) (n fuel : Nat)
    (h : (used.filter (fun k => n ≤ k)).card < fuel) :
    findFree used n fuel ∉ used := by
  induction fuel generalizing n with
  | zero => omega
  | succ f ih =>
    unfold findFree
    split
    · rename_i hn
      apply ih
      have hss : used.filter (fun k => n + 1 ≤ k) ⊂
          used.filter (fun k => n ≤ k) := by
        constructor
        · intro x hx
          have hx' := Finset.mem_filter.mp hx
          exact Finset.mem_filter.mpr ⟨hx'.1, by omega⟩
        · intro hsub
          have hn' : n ∈ used.filter (fun k => n ≤ k) :=
            Finset.mem_filter.mpr ⟨hn, le_refl n⟩
          have := hsub hn'
          have := (Finset.mem_filter.mp this).2
          omega
      have := Finset.card_lt_card hss
      omega
    · assumption

lemma skipUsed_not_mem (used : Finset Nat) (n : Nat) :
    skipUsed used n ∉ used := by
  apply findFree_not_mem
  have := Finset.card_filter_le used (fun k => n ≤ k)
  omega

lemma skipUsed_ge (used : Finset Nat) (n : Nat) : n ≤ skipUsed used n :=
  findFree_ge used n (used.card + 1)

lemma keys_state (d : List (Nat × Record)) (n : Nat) (f : Finset Nat) :
    keys ⟨d, n, f⟩ = d.map Prod.fst := rfl

lemma next_id_state (d : List (Nat × Record)) (n : Nat) (f : Finset Nat) :
    (⟨d, n, f⟩ : AddressBook).next_id = n := rfl

lemma free_ids_state (d : List (Nat × Record)) (n : Nat) (f : Finset Nat) :
    (⟨d, n, f⟩ : AddressBook).free_ids = f := rfl

lemma keys_dictInsert (k : Nat) (v : Record) (l : List (Nat × Record))
    (h : k ∉ l.map Prod.fst) :
    (dictInsert k v l).map Prod.fst = l.map Prod.fst ++ [k] := by
  unfold dictInsert
  rw [if_neg h]
  simp

lemma addAssign_fst_of_nonempty (b : AddressBook) (r : Record)
    (h : b.free_ids.Nonempty) :
    (addAssign b r).1 = b.free_ids.min' h := by
  unfold addAssign
  rw [dif_pos h]

lemma addAssign_snd_of_nonempty (b : AddressBook) (r : Record)
    (h : b.free_ids.Nonempty) :
    (addAssign b r).2 =
      ⟨dictInsert (b.free_ids.min' h) r b.data,
        skipUsed ((keys b).toFinset ∪ b.free_ids) b.next_id,
        b.free_ids.erase (b.free_ids.min' h)⟩ := by
  unfold addAssign
  rw [dif_pos h]

lemma addAssign_fst_of_empty (b : AddressBook) (r : Record)
    (h : ¬ b.free_ids.Nonempty) :
    (addAssign b r).1 =
      skipUsed ((keys b).toFinset ∪ b.free_ids) b.next_id := by
  unfold addAssign
  rw [dif_neg h]

lemma addAssign_snd_of_empty (b : AddressBook) (r : Record)
    (h : ¬ b.free_ids.Nonempty) :
    (addAssign b r).2 =
      ⟨dictInsert (skipUsed ((keys b).toFinset ∪ b.free_ids) b.next_id)
          r b.data,
        skipUsed ((keys b).toFinset ∪ b.free_ids) b.next_id + 1,
        b.free_ids⟩ := by
  unfold addAssign
  rw [dif_neg h]

lemma assignId_not_key (b : AddressBook) (r : Record) (hInv : Inv b) :
    (addAssign b r).1 ∉ keys b := by
  obtain ⟨_, hdisj, _, _⟩ := hInv
  by_cases h : b.free_ids.Nonempty
  · rw [addAssign_fst_of_nonempty b r h]
    intro hmem
    exact hdisj _ hmem (b.free_ids.min'_mem h)
  · rw [addAssign_fst_of_empty b r h]
    intro hmem
    exact skipUsed_not_mem ((keys b).toFinset ∪ b.free_ids) b.next_id
      (Finset.mem_union_left _ (List.mem_toFinset.mpr hmem))

lemma Inv_addAssign (b : AddressBook) (r : Record) (hInv : Inv b) :
    Inv (addAssign b r).2 := by
  have hnotkey := assignId_not_key b r hInv
  obtain ⟨hnodup, hdisj, hkb, hfb⟩ := hInv
  have hge := skipUsed_ge ((keys b).toFinset ∪ b.free_ids) b.next_id
  have hnot := skipUsed_not_mem ((keys b).toFinset ∪ b.free_ids) b.next_id
  by_cases h : b.free_ids.Nonempty
  · rw [addAssign_fst_of_nonempty b r h] at hnotkey
    rw [addAssign_snd_of_nonempty b r h]
    unfold Inv
    simp only [next_id_state, free_ids_state]
    have hkeys : keys (⟨dictInsert (b.free_ids.min' h) r b.data,
        skipUsed ((keys b).toFinset ∪ b.free_ids) b.next_id,
        b.free_ids.erase (b.free_ids.min' h)⟩ : AddressBook) =
          keys b ++ [b.free_ids.min' h] := by
      rw [keys_state]
      exact keys_dictInsert _ _ _ hnotkey
    refine ⟨?_, ?_, ?_, ?_⟩
    · rw [hkeys]
      simp only [List.nodup_append, List.nodup_cons, List.nodup_nil]
      exact ⟨hnodup, ⟨by simp, trivial⟩, by simpa using hnotkey⟩
    · intro k hk
      rw [hkeys] at hk
      simp only [List.mem_append, List.mem_singleton] at hk
      rcases hk with hk | rfl
      · intro hmem
        exact hdisj k hk (Finset.mem_of_mem_erase hmem)
      · exact Finset.not_mem_erase _ _
    · intro k hk
      rw [hkeys] at hk
      simp only [List.mem_append, List.mem_singleton] at hk
      rcases hk with hk | rfl
      · exact lt_of_lt_of_le (hkb k hk) hge
      · exact lt_of_lt_of_le (hfb _ (b.free_ids.min'_mem h)) hge
    · intro k hk
      exact lt_of_lt_of_le (hfb k (Finset.mem_of_mem_erase hk)) hge
  · rw [addAssign_fst_of_empty b r h] at hnotkey
    rw [addAssign_snd_of_empty b r h]
    unfold Inv
    simp only [next_id_state, free_ids_state]
    have hkeys : keys (⟨dictInsert
        (skipUsed ((keys b).toFinset ∪ b.free_ids) b.next_id) r b.data,
        skipUsed ((keys b).toFinset ∪ b.free_ids) b.next_id + 1,
        b.free_ids⟩ : AddressBook) =
          keys b ++ [skipUsed ((keys b).toFinset ∪ b.free_ids) b.next_id] := by
      rw [keys_state]
      exact keys_dictInsert _ _ _ hnotkey
    refine ⟨?_, ?_, ?_, ?_⟩
    · rw [hkeys]
      simp only [List.nodup_append, List.nodup_cons, List.nodup_nil]
      exact ⟨hnodup, ⟨by simp, trivial⟩, by simpa using hnotkey⟩
    · intro k hk
      rw [hkeys] at hk
      simp only [List.mem_append, List.mem_singleton] at hk
      rcases hk with hk | rfl
      · exact hdisj k hk
      · intro hmem
        exact hnot (Finset.mem_union_right _ hmem)
    · intro k hk
      rw [hkeys] at hk
      simp only [List.mem_append, List.mem_singleton] at hk
      rcases hk with hk | rfl
      · exact lt_of_lt_of_le (hkb k hk) (by omega)
      · omega
    · intro k hk
      exact lt_of_lt_of_le (hfb k hk) (by omega)

lemma Inv_delete (b : AddressBook) (i : Nat) (hInv : Inv b) :
    Inv (delete_record_by_id b i) := by
  obtain ⟨hnodup, hdisj, hkb, hfb⟩ := hInv
  unfold delete_record_by_id
  split
  · rename_i hmem
    have hks : ∀ k, k ∈ keys ⟨b.data.filter (fun p => p.1 ≠ i),
        b.next_id, insert i b.free_ids⟩ → k ∈ keys b ∧ k ≠ i := by
      intro k hk
      simp only [keys, List.mem_map] at hk
      obtain ⟨p, hp, rfl⟩ := hk
      have hpf := List.mem_filter.mp hp
      refine ⟨List.mem_map.mpr ⟨p, hpf.1, rfl⟩, ?_⟩
      simpa using hpf.2
    refine ⟨?_, ?_, ?_, ?_⟩
    · exact ((List.filter_sublist _).map Prod.fst).nodup hnodup
    · intro k hk hins
      obtain ⟨hkb', hki⟩ := hks k hk
      rcases Finset.mem_insert.mp hins with h | h
      · exact hki h
      · exact hdisj k hkb' h
    · intro k hk
      exact hkb k (hks k hk).1
    · intro k hk
      rcases Finset.mem_insert.mp hk with rfl | h
      · exact hkb k hmem
      · exact hfb k h
  · exact ⟨hnodup, hdisj, hkb, hfb⟩

lemma Inv_step (b : AddressBook) (op : Op) (hInv : Inv b) :
    Inv (step b op) := by
  cases op with
  | add r => exact Inv_addAssign b r hInv
  | del i => exact Inv_delete b i hInv

lemma Inv_empty : Inv ⟨[], 1, ∅⟩ := by
  refine ⟨List.nodup_nil, ?_, ?_, ?_⟩ <;> intro k hk <;> simp [keys] at hk

lemma Inv_run (ops : List Op) : Inv (run ops) := by
  have h : ∀ (l : List Op) (b : AddressBook), Inv b → Inv (l.foldl step b) := by
    intro l
    induction l with
    | nil => exact fun b hb => hb
    | cons op rest ih => exact fun b hb => ih _ (Inv_step b op hb)
  exact h ops _ Inv_empty

lemma next_id_step_mono (b : AddressBook) (op : Op) :
    b.next_id ≤ (step b op).next_id := by
  cases op with
  | add r =>
    have hge := skipUsed_ge ((keys b).toFinset ∪ b.free_ids) b.next_id
    show b.next_id ≤ (addAssign b r).2.next_id
    by_cases h : b.free_ids.Nonempty
    · rw [addAssign_snd_of_nonempty b r h]
      exact hge
    · rw [addAssign_snd_of_empty b r h]
      exact le_trans hge (Nat.le_succ _)
  | del i =>
    show b.next_id ≤ (delete_record_by_id b i).next_id
    unfold delete_record_by_id
    split
    · rw [next_id_state]
    · exact le_refl _

/-- C1: from a fresh `AddressBook`, after any sequence of `add_record` and
delete-by-id operations: the ids keying records are unique, no stored id
is simultaneously in the freed pool, the fresh counter never decreases
across a further operation, and the id the next `add_record` would assign
never collides with a stored id. -/
theorem addressbook_invariants (ops : List Op) (op : Op) (r : Record) :
    ((keys (run ops)).Nodup ∧
      ∀ k ∈ keys (run ops), k ∉ (run ops).free_ids) ∧
    (run ops).next_id ≤ (step (run ops) op).next_id ∧
    (addAssign (run ops) r).1 ∉ keys (run ops) := by
  have hInv := Inv_run ops
  exact ⟨⟨hInv.1, hInv.2.1⟩, next_id_step_mono _ op,
    assignId_not_key _ r hInv⟩

/-- C2 counterexample: reachable state `run [add, add, add, del 1]` has
freed pool {1}; deleting id 3 then releases 3, but the next `add_record`
assigns 1 (the smallest freed id overall), not the just-released 3. -/
theorem reuse_smallest_freed_cex :
    let r : Record := ⟨"Jan", [], [], none⟩
    let b := run [Op.add r, Op.add r, Op.add r, Op.del 1]
    3 ∈ keys b ∧
      (addAssign (delete_record_by_id b 3) r).1 = 1 ∧ (1 : Nat) ≠ 3 := by
  refine ⟨?_, ?_, ?_⟩ <;> decide

/-- C2 (amended): if the freed pool was empty before deleting id `k` (so
`k` becomes the only freed id), then the next `add_record` assigns `k`,
the pool empties again, and a second `add_record` assigns a fresh id at or
beyond the counter — strictly larger than `k`, so `k` is never handed out
twice. -/
theorem id_reuse_after_single_free (b : AddressBook) (k : Nat)
    (r₁ r₂ : Record) (hInv : Inv b) (hk : k ∈ keys b)
    (hfe : b.free_ids = ∅) :
    (addAssign (delete_record_by_id b k) r₁).1 = k ∧
    (addAssign (delete_record_by_id b k) r₁).2.free_ids = ∅ ∧
    b.next_id ≤
      (addAssign (addAssign (delete_record_by_id b k) r₁).2 r₂).1 ∧
    k < (addAssign (addAssign (delete_record_by_id b k) r₁).2 r₂).1 := by
  obtain ⟨hnodup, hdisj, hkb, hfb⟩ := hInv
  have hkn : k < b.next_id := hkb k hk
  unfold delete_record_by_id
  rw [if_pos hk, hfe]
  have hne : (insert k (∅ : Finset Nat)).Nonempty :=
    ⟨k, Finset.mem_insert_self k ∅⟩
  have hmin : (insert k (∅ : Finset Nat)).min' hne = k := by
    apply le_antisymm
    · exact Finset.min'_le _ k (Finset.mem_insert_self k ∅)
    · apply Finset.le_min'
      intro y hy
      rcases Finset.mem_insert.mp hy with rfl | h
      · exact le_refl y
      · exact absurd h (Finset.not_mem_empty y)
  have herase : (insert k (∅ : Finset Nat)).erase k = ∅ :=
    Finset.erase_insert (Finset.not_mem_empty k)
  rw [addAssign_fst_of_nonempty _ r₁ hne, addAssign_snd_of_nonempty _ r₁ hne]
  simp only [hmin, herase]
  rw [addAssign_fst_of_empty _ r₂ (by simp)]
  refine ⟨by trivial, by trivial, ?_, ?_⟩
  · exact le_trans (skipUsed_ge _ _) (skipUsed_ge _ _)
  · exact lt_of_lt_of_le hkn
      (le_trans (skipUsed_ge _ _) (skipUsed_ge _ _))

/-- C2 witness: a two-record book with an empty freed pool; deleting id 1
and adding twice re-assigns 1 first and then a strictly larger fresh id. -/
theorem id_reuse_after_single_free_witness :
    (addAssign (delete_record_by_id
      (run [Op.add ⟨"Jan", [], [], none⟩, Op.add ⟨"Ola", [], [], none⟩]) 1)
      ⟨"Ewa", [], [], none⟩).1 = 1 ∧
    (addAssign (delete_record_by_id
      (run [Op.add ⟨"Jan", [], [], none⟩, Op.add ⟨"Ola", [], [], none⟩]) 1)
      ⟨"Ewa", [], [], none⟩).2.free_ids = ∅ ∧
    (run [Op.add ⟨"Jan", [], [], none⟩,
      Op.add ⟨"Ola", [], [], none⟩]).next_id ≤
      (addAssign (addAssign (delete_record_by_id
        (run [Op.add ⟨"Jan", [], [], none⟩, Op.add ⟨"Ola", [], [], none⟩]) 1)
        ⟨"Ewa", [], [], none⟩).2 ⟨"Iza", [], [], none⟩).1 ∧
    1 < (addAssign (addAssign (delete_record_by_id
      (run [Op.add ⟨"Jan", [], [], none⟩, Op.add ⟨"Ola", [], [], none⟩]) 1)
      ⟨"Ewa", [], [], none⟩).2 ⟨"Iza", [], [], none⟩).1 :=
  id_reuse_after_single_free
    (run [Op.add ⟨"Jan", [], [], none⟩, Op.add ⟨"Ola", [], [], none⟩]) 1
    ⟨"Ewa", [], [], none⟩ ⟨"Iza", [], [], none⟩
    (by constructor
        · decide
        · refine ⟨?_, ?_, ?_⟩ <;> decide)
    (by decide) (by decide)

end PA
